import Mathlib

/-!
Verification of the Dank Memer heist payout parsing and aggregation engine.

This development shallowly embeds the pure parsing/formatting/detection code
of `heistsummary.py` and of the heist auto-calculator file (the unnamed
source file, called "HC" below).  Python strings are modelled as `List Char`,
Python floats as exact rationals `ℚ` (decimal literals and the arithmetic
performed here are modelled exactly; rounding to two decimals in string
formatting is modelled as round-half-to-even, matching CPython's fixed-point
formatting on exactly representable values).  Python's `None` becomes
`Option.none`.  Character-class tests (`\d`, `\s`, `str.lower`, `str.strip`)
are modelled over ASCII, which covers every character the program's own
patterns and literals produce.
-/

set_option maxRecDepth 40000

/-- Python strings are modelled as lists of characters. -/
abbrev Str := List Char

/-- Membership of Python's whitespace class `\s` (ASCII part), also used to
model `str.strip()`. -/
def isPySpace (c : Char) : Bool :=
  c == ' ' || c == '\t' || c == '\n' || c == '\r' || c == '\x0b' || c == '\x0c'

/-- Characters accepted by the regex class `[\d\.]` (ASCII model). -/
def isNumChar (c : Char) : Bool :=
  c.isDigit || c == '.'

/-- Python `str.strip()`: drop whitespace from both ends. -/
def pyStrip (s : Str) : Str :=
  ((s.dropWhile isPySpace).reverse.dropWhile isPySpace).reverse

/-- Python `float(...)` applied to a string drawn from the regex class
`[\d\.]+`: succeeds iff there is at most one decimal point and at least one
digit; the value is the exact decimal denoted. -/
def decValue (s : Str) : Option ℚ :=
  if s.count '.' ≤ 1 ∧ s.any Char.isDigit then
    let ip := s.takeWhile (fun c => !(c == '.'))
    let fp := (s.dropWhile (fun c => !(c == '.'))).drop 1
    some ((ip.foldl (fun a c => 10 * a + (c.toNat - 48)) 0 : ℕ) +
          ((fp.foldl (fun a c => 10 * a + (c.toNat - 48)) 0 : ℕ) : ℚ) / 10 ^ fp.length)
  else none

/-- Decimal value of a digit string (accumulator form), used by `decValue`. -/
def natOfDigits (s : Str) : ℕ :=
  s.foldl (fun a c => 10 * a + (c.toNat - 48)) 0

/-- Characters kept by `raw.replace("⏣", "").replace(",", "")` in
`parse_currency_value`. -/
def keepCur (c : Char) : Bool :=
  !(c == '⏣') && !(c == ',')

/-- Cleaning step of `parse_currency_value`
(`raw.replace("⏣", "").replace(",", "").strip()`). -/
def cleanCur (raw : Str) : Str :=
  pyStrip (raw.filter keepCur)

/-- Cleaning step of `parse_plain_number` (`raw.replace(",", "").strip()`). -/
def cleanPlain (raw : Str) : Str :=
  pyStrip (raw.filter (fun c => !(c == ',')))

/-- Embeds `parse_currency_value` of heistsummary.py (lines 23-46): strip the
currency glyph and commas, match `([\d\.]+)([kKmMbB]?)` at the start, convert
the numeric part (a failing conversion yields `None`), scale by the suffix. -/
def parse_currency_value (raw : Str) : Option ℚ :=
  if raw = [] then none
  else
    let text := cleanCur raw
    let numStr := text.takeWhile isNumChar
    if numStr = [] then none
    else
      match decValue numStr with
      | none => none
      | some v =>
        match (text.drop numStr.length).head? with
        | some c =>
          if c == 'k' || c == 'K' then some (v * 1000)
          else if c == 'm' || c == 'M' then some (v * 1000000)
          else if c == 'b' || c == 'B' then some (v * 1000000000)
          else some v
        | none => some v

/-- Embeds `parse_plain_number` of heistsummary.py (lines 48-61): strip commas,
match `([\d\.]+)` at the start, convert (a failing conversion yields `None`). -/
def parse_plain_number (raw : Str) : Option ℚ :=
  if raw = [] then none
  else
    let text := cleanPlain raw
    let numStr := text.takeWhile isNumChar
    if numStr = [] then none
    else decValue numStr

/-- Round half to even, the rounding CPython's fixed-point string formatting
applies to the value being printed. -/
def roundHalfEven (q : ℚ) : ℤ :=
  if Int.fract q < 1/2 then ⌊q⌋
  else if 1/2 < Int.fract q then ⌊q⌋ + 1
  else if ⌊q⌋ % 2 = 0 then ⌊q⌋ else ⌊q⌋ + 1

/-- The character of a decimal digit. -/
def digitChar (n : ℕ) : Char := Char.ofNat (48 + n)

/-- Decimal digit string of a natural number, most significant digit first
(fuel-based so that it reduces definitionally; `fuel > n` always suffices). -/
def natDigitsAux : ℕ → ℕ → Str
  | 0, _ => []
  | fuel + 1, n =>
    if n < 10 then [digitChar n]
    else natDigitsAux fuel (n / 10) ++ [digitChar (n % 10)]

/-- Decimal digit string of a natural number, most significant digit first. -/
def natDigits (n : ℕ) : Str := natDigitsAux (n + 1) n

/-- Insert thousands separators into a reversed digit string. -/
def groupRev : Str → Str
  | a :: b :: c :: d :: rest => a :: b :: c :: ',' :: groupRev (d :: rest)
  | s => s

/-- Insert thousands separators into a digit string, as Python's `f"{..:,}"`. -/
def group3 (ds : Str) : Str := (groupRev ds.reverse).reverse

/-- The two fractional digits printed by a `.2f` format, for `n < 100`. -/
def twoFrac (n : ℕ) : Str := [digitChar (n / 10), digitChar (n % 10)]

/-- Python `f"{x:.2f}"`: fixed-point rendering with two decimals, no
thousands separators. -/
def fixed2 (x : ℚ) : Str :=
  let n := (roundHalfEven (100 * x)).natAbs
  (if x < 0 then ['-'] else []) ++ natDigits (n / 100) ++ '.' :: twoFrac (n % 100)

/-- Python `f"{x:,.2f}"`: fixed-point rendering with two decimals and
thousands separators in the integer part. -/
def commaGrouped2 (x : ℚ) : Str :=
  let n := (roundHalfEven (100 * x)).natAbs
  (if x < 0 then ['-'] else []) ++ group3 (natDigits (n / 100)) ++ '.' :: twoFrac (n % 100)

/-- Python `s.endswith(".00")`. -/
def endsDot00 (s : Str) : Bool :=
  match s.reverse with
  | c0 :: c1 :: c2 :: _ => c0 == '0' && c1 == '0' && c2 == '.'
  | _ => false

/-- Python `s[:-3]`. -/
def pyDropLast3 (s : Str) : Str := s.take (s.length - 3)

/-- Python `s.rstrip(c)` for a single strip character. -/
def rstripChar (c : Char) (s : Str) : Str :=
  (s.reverse.dropWhile (fun d => d == c)).reverse

/-- Embeds `format_number` of heistsummary.py (lines 63-71): group with commas
at two decimals, drop a trailing ".00" entirely, otherwise drop trailing
zeros and then a trailing decimal point. -/
def format_number (v : ℚ) : Str :=
  let f := commaGrouped2 v
  if endsDot00 f then pyDropLast3 f
  else rstripChar '.' (rstripChar '0' f)

/-- The `(s[:-3] if s.endswith(".00") else s)` step of `abbreviate_number`. -/
def stripDot00 (s : Str) : Str := if endsDot00 s then pyDropLast3 s else s

/-- Embeds `abbreviate_number` of heistsummary.py (lines 73-87): scale by the
largest applicable unit of B/M/K, render at two decimals, strip only an exact
trailing ".00", append the unit letter; below 1000 fall back to
`format_number`. -/
def abbreviate_number (v : ℚ) : Str :=
  if 1000000000 ≤ v then stripDot00 (fixed2 (v / 1000000000)) ++ ['B']
  else if 1000000 ≤ v then stripDot00 (fixed2 (v / 1000000)) ++ ['M']
  else if 1000 ≤ v then stripDot00 (fixed2 (v / 1000)) ++ ['K']
  else format_number v

/-- Lowercasing used by `content.lower()` (ASCII model). -/
def lowerStr (s : Str) : Str := s.map Char.toLower

/-- The trigger phrase of the payout detector. -/
def phrase : Str := "amazing job everybody".toList

/-- Python substring containment (`needle in haystack`). -/
def containsStr (n : Str) : Str → Bool
  | [] => n.isPrefixOf []
  | c :: t => n.isPrefixOf (c :: t) || containsStr n t

/-- Line-break characters recognised by Python `str.splitlines()`. -/
def isLineBreak (c : Char) : Bool :=
  c == '\n' || c == '\r' || c == '\x0b' || c == '\x0c' || c == '\x1c' ||
  c == '\x1d' || c == '\x1e' || c == '\x85' || c == '\u2028' || c == '\u2029'

/-- Worker for `pySplitlines`; the accumulator holds the current line
reversed. -/
def splAux : Str → Str → List Str
  | [], acc => if acc = [] then [] else [acc.reverse]
  | '\r' :: '\n' :: rest, acc => acc.reverse :: splAux rest []
  | c :: rest, acc =>
    if isLineBreak c then acc.reverse :: splAux rest [] else splAux rest (c :: acc)

/-- Python `str.splitlines()`. -/
def pySplitlines (s : Str) : List Str := splAux s []

/-- The markdown-stripping step `re.sub(r"[`\*]+", "", line).strip()` applied
to each line (character 96 is the backtick). -/
def cleanLine (l : Str) : Str :=
  pyStrip (l.filter (fun c => !(c == Char.ofNat 96) && !(c == '*')))

/-- Case-insensitive literal match: if the lowercase literal `p` matches a
prefix of `s` (case-insensitively), return the rest of `s`. -/
def ciStrip : Str → Str → Option Str
  | [], s => some s
  | _ :: _, [] => none
  | p :: ps, c :: cs => if p == c.toLower then ciStrip ps cs else none

/-- Case-insensitive literal prefix test. -/
def ciStarts (p s : Str) : Bool := (ciStrip p s).isSome

def litRacked : Str := "racked up a total".toList
def litUser : Str := "user".toList
def litGot : Str := " got the payout".toList

/-- The character class `[\d,\.kmKMbB]` of the total pattern. -/
def totalClass (c : Char) : Bool :=
  c.isDigit || c == ',' || c == '.' || c == 'k' || c == 'K' || c == 'm' ||
  c == 'M' || c == 'b' || c == 'B'

/-- The character class `[\d,\.]` of the count pattern. -/
def countClass (c : Char) : Bool := c.isDigit || c == ',' || c == '.'

/-- After the literal "racked up a total" has matched, the lazy gap `.*?`
scans forward to the first currency glyph that is followed (after optional
whitespace) by at least one `totalClass` character; the greedy group then
captures the maximal such run. -/
def findGlyphNum : Str → Option Str
  | [] => none
  | c :: rest =>
    if c == '⏣' then
      let run := (rest.dropWhile isPySpace).takeWhile totalClass
      if run = [] then findGlyphNum rest else some run
    else findGlyphNum rest

/-- Embeds `total_pattern.search(clean_line)` returning `group(1)`, for the
pattern `racked up a total.*?⏣\s*([\d,\.kmKMbB]+)` (IGNORECASE): the search
anchors at the first occurrence of the literal; if no valid glyph-number
follows it, no later occurrence can succeed either (its candidates are a
subset), so the whole search fails. -/
def searchTotal : Str → Option Str
  | [] => none
  | c :: t =>
    match ciStrip litRacked (c :: t) with
    | some rest => findGlyphNum rest
    | none => searchTotal t

/-- Match of the count pattern `([\d,\.]+)\s+user(?:s)? got the payout`
(IGNORECASE) anchored at the start of `s`: a maximal nonempty class run, at
least one whitespace character, then `user`, an optional `s`, and the literal
` got the payout`, all case-insensitively.  (Because the character classes
and the literals start with distinct character kinds, the regex backtracking
collapses to maximal-munch runs.) -/
def matchCountAt (s : Str) : Option Str :=
  let run := s.takeWhile countClass
  if run = [] then none
  else
    let s1 := s.drop run.length
    let ws := s1.takeWhile isPySpace
    if ws = [] then none
    else
      match ciStrip litUser (s1.drop ws.length) with
      | none => none
      | some s3 =>
        if (match s3 with
            | c :: s4 => (c == 's' || c == 'S') && ciStarts litGot s4
            | [] => false) then some run
        else if ciStarts litGot s3 then some run
        else none

/-- Embeds `count_pattern.search(clean_line)` returning `group(1)`: leftmost
start position at which `matchCountAt` succeeds. -/
def searchCount : Str → Option Str
  | [] => none
  | c :: t =>
    match matchCountAt (c :: t) with
    | some r => some r
    | none => searchCount t

/-- One iteration of the per-line extraction loop (heistsummary.py lines
141-154 and the identical loop of the HC file): a line whose total pattern
matches and whose token parses overwrites `total_coins`; a line whose count
pattern matches and whose token parses overwrites `payout_count` with the
integer truncation of the parsed value (the parsed value is nonnegative, so
Python's `int()` truncation is the floor). -/
def scanStep (acc : Option ℚ × ℕ) (line : Str) : Option ℚ × ℕ :=
  let cl := cleanLine line
  let t := match searchTotal cl with
    | some tok =>
      match parse_currency_value ('⏣' :: ' ' :: tok) with
      | some v => some v
      | none => acc.1
    | none => acc.1
  let p := match searchCount cl with
    | some tok =>
      match parse_plain_number tok with
      | some n => (⌊n⌋).toNat
      | none => acc.2
    | none => acc.2
  (t, p)

/-- The lines scanned by the detector: `content.strip().splitlines()`. -/
def linesOf (text : Str) : List Str := pySplitlines (pyStrip text)

/-- The `(total_coins, payout_count)` state after the per-line loop. -/
def scanMsgLines (text : Str) : Option ℚ × ℕ :=
  (linesOf text).foldl scanStep (none, 0)

/-- The single-message payout detector: requires the trigger phrase in the
lowercased text, then the scanned total and a positive count. -/
def detectPayout (text : Str) : Option (ℚ × ℕ) :=
  if containsStr phrase (lowerStr text) then
    match scanMsgLines text with
    | (some t, c) => if 0 < c then some (t, c) else none
    | (none, _) => none
  else none

/-- The detection together with the per-recipient share
`each_amount = total_coins / payout_count`, which both callers compute only
after `detectPayout` has succeeded. -/
def buildAnnouncement (text : Str) : Option (ℚ × ℕ × ℚ) :=
  match detectPayout text with
  | some (t, c) => some (t, c, t / (c : ℚ))
  | none => none

/-- A candidate chat message: author id, body, and embeds given as
(title?, description?) pairs. -/
structure Msg where
  authorId : ℕ
  content : Str
  embeds : List (Option Str × Option Str)
deriving DecidableEq

def DANK_MEMER_ID : ℕ := 270904126974590976

/-- The combined display text: the body plus, if embeds are present, the last
embed's title and description, newline-joined (`or ''` maps a missing field
to the empty string). -/
def combinedText (m : Msg) : Str :=
  match m.embeds.getLast? with
  | some (t, d) => m.content ++ '\n' :: t.getD [] ++ '\n' :: d.getD []
  | none => m.content

/-- Per-message step of the batch scan: messages not authored by Dank Memer
are skipped, others run through the detector on their combined text. -/
def detectMsg (m : Msg) : Option (ℚ × ℕ) :=
  if m.authorId = DANK_MEMER_ID then detectPayout (combinedText m) else none

/-- The batch loop of `get_recent_heist_messages` (heistsummary.py lines
124-160): walk the newest-first messages, append each detection, and stop as
soon as `limit ≤ len(found)` (the check runs after every message). -/
def scanLoop : List Msg → ℕ → List (Msg × ℚ × ℕ) → List (Msg × ℚ × ℕ)
  | [], _, found => found
  | m :: rest, limit, found =>
    let found2 := match detectMsg m with
      | some tc => found ++ [(m, tc.1, tc.2)]
      | none => found
    if limit ≤ found2.length then found2 else scanLoop rest limit found2

/-- Embeds `get_recent_heist_messages` (heistsummary.py lines 107-163) on an
already-fetched newest-first message list: scan, then reverse into
chronological order. -/
def get_recent_heist_messages (msgs : List Msg) (limit : ℕ) : List (Msg × ℚ × ℕ) :=
  (scanLoop msgs limit []).reverse

/-- A successful detection paired with its message, as the batch loop
appends it. -/
def detectEntry (m : Msg) : Option (Msg × ℚ × ℕ) :=
  (detectMsg m).map (fun tc => (m, tc.1, tc.2))

/-- A character is a decimal digit image of `digitChar`. -/
def IsDigitChar (c : Char) : Prop := ∃ m, m < 10 ∧ c = digitChar m

/-! ### Per-line extraction outcomes -/

/-- The value a line contributes to `total_coins`: present exactly when the
total pattern matches the cleaned line and its captured token parses. -/
def lineTotalValue (l : Str) : Option ℚ :=
  match searchTotal (cleanLine l) with
  | some tok => parse_currency_value ('⏣' :: ' ' :: tok)
  | none => none

/-- The value a line contributes to `payout_count`: present exactly when the
count pattern matches the cleaned line and its captured token parses. -/
def lineCountValue (l : Str) : Option ℕ :=
  match searchCount (cleanLine l) with
  | some tok =>
    match parse_plain_number tok with
    | some n => some (⌊n⌋).toNat
    | none => none
  | none => none

/-- Ten newest-first candidate messages of which exactly three qualify (one
payout text appears under a non-Dank-Memer author and is skipped). -/
def exMsgs : List Msg :=
  [⟨123, "amazing job everybody racked up a total ⏣ 999 and 9 users got the payout".toList, []⟩,
   ⟨DANK_MEMER_ID, "hello world".toList, []⟩,
   ⟨DANK_MEMER_ID, "amazing job everybody racked up a total ⏣ 100 and 2 users got the payout".toList, []⟩,
   ⟨DANK_MEMER_ID, "no payout here".toList, []⟩,
   ⟨DANK_MEMER_ID, "spam".toList, []⟩,
   ⟨DANK_MEMER_ID, "amazing job everybody racked up a total ⏣ 300 and 3 users got the payout".toList, []⟩,
   ⟨DANK_MEMER_ID, "chatter".toList, []⟩,
   ⟨123, "ads".toList, []⟩,
   ⟨DANK_MEMER_ID, "amazing job everybody racked up a total ⏣ 900 and 9 users got the payout".toList, []⟩,
   ⟨DANK_MEMER_ID, "bye".toList, []⟩]

/-! ### The heist auto-calculator's copies of the helpers -/

namespace HC

/-- Embeds `parse_currency_value` of the HC file (lines 39-61).  The body is
the same as the heistsummary.py copy up to logging calls, which do not affect
the returned value. -/
def parse_currency_value (raw : Str) : Option ℚ :=
  if raw = [] then none
  else
    let text := cleanCur raw
    let numStr := text.takeWhile isNumChar
    if numStr = [] then none
    else
      match decValue numStr with
      | none => none
      | some v =>
        match (text.drop numStr.length).head? with
        | some c =>
          if c == 'k' || c == 'K' then some (v * 1000)
          else if c == 'm' || c == 'M' then some (v * 1000000)
          else if c == 'b' || c == 'B' then some (v * 1000000000)
          else some v
        | none => some v

/-- Embeds `parse_plain_number` of the HC file (lines 63-76). -/
def parse_plain_number (raw : Str) : Option ℚ :=
  if raw = [] then none
  else
    let text := cleanPlain raw
    let numStr := text.takeWhile isNumChar
    if numStr = [] then none
    else decValue numStr

/-- Embeds `format_number` of the HC file (lines 78-83). -/
def format_number (v : ℚ) : Str :=
  let f := commaGrouped2 v
  if endsDot00 f then pyDropLast3 f
  else rstripChar '.' (rstripChar '0' f)

/-- Embeds `abbreviate_number` of the HC file (lines 85-97); its fallback
branch calls the HC file's own `format_number`. -/
def abbreviate_number (v : ℚ) : Str :=
  if 1000000000 ≤ v then stripDot00 (fixed2 (v / 1000000000)) ++ ['B']
  else if 1000000 ≤ v then stripDot00 (fixed2 (v / 1000000)) ++ ['M']
  else if 1000 ≤ v then stripDot00 (fixed2 (v / 1000)) ++ ['K']
  else format_number v

end HC

/-! ### Basic lemmas about digits and rendering -/

theorem digitChar_toNat {m : ℕ} (h : m < 10) : (digitChar m).toNat = 48 + m := by
  interval_cases m <;> rfl

theorem digitChar_class {m : ℕ} (h : m < 10) :
    (digitChar m).isDigit = true ∧ isNumChar (digitChar m) = true ∧
    keepCur (digitChar m) = true ∧ isPySpace (digitChar m) = false ∧
    ((digitChar m == '.') = false) ∧ ((digitChar m == ',') = false) := by
  interval_cases m <;> decide

theorem digitChar_eq_zero_iff {m : ℕ} (h : m < 10) :
    ((digitChar m == '0') = true) ↔ m = 0 := by
  interval_cases m <;> decide

theorem natOfDigits_nil : natOfDigits [] = 0 := rfl

theorem natOfDigits_append_singleton (xs : Str) (c : Char) :
    natOfDigits (xs ++ [c]) = 10 * natOfDigits xs + (c.toNat - 48) := by
  simp [natOfDigits, List.foldl_append]

theorem natDigitsAux_spec :
    ∀ fuel n, n < fuel →
      natOfDigits (natDigitsAux fuel n) = n ∧ natDigitsAux fuel n ≠ [] ∧
      ∀ c ∈ natDigitsAux fuel n, IsDigitChar c := by
  intro fuel
  induction fuel with
  | zero => intro n hn; omega
  | succ fuel ih =>
    intro n hn
    by_cases h10 : n < 10
    · refine ⟨?_, by simp [natDigitsAux, h10], ?_⟩
      · simp [natDigitsAux, h10, natOfDigits, digitChar_toNat h10]
      · intro c hc
        simp [natDigitsAux, h10] at hc
        exact ⟨n, h10, hc⟩
    · have hdiv : n / 10 < fuel := by
        have := Nat.div_lt_self (by omega : 0 < n) (by omega : 1 < 10)
        omega
      obtain ⟨hval, hne, hmem⟩ := ih (n / 10) hdiv
      refine ⟨?_, ?_, ?_⟩
      · rw [natDigitsAux]
        simp only [if_neg h10]
        rw [natOfDigits_append_singleton, hval,
          digitChar_toNat (Nat.mod_lt _ (by omega))]
        omega
      · rw [natDigitsAux]
        simp only [if_neg h10]
        simp
      · intro c hc
        rw [natDigitsAux] at hc
        simp only [if_neg h10, List.mem_append, List.mem_singleton] at hc
        rcases hc with hc | hc
        · exact hmem c hc
        · exact ⟨n % 10, Nat.mod_lt _ (by omega), hc⟩

theorem natOfDigits_natDigits (n : ℕ) : natOfDigits (natDigits n) = n :=
  (natDigitsAux_spec (n + 1) n (by omega)).1

theorem natDigits_ne_nil (n : ℕ) : natDigits n ≠ [] :=
  (natDigitsAux_spec (n + 1) n (by omega)).2.1

theorem mem_natDigits {n : ℕ} {c : Char} (h : c ∈ natDigits n) : IsDigitChar c :=
  (natDigitsAux_spec (n + 1) n (by omega)).2.2 c h

theorem groupRev_cons4 (a b c d : Char) (rest : Str) :
    groupRev (a :: b :: c :: d :: rest) = a :: b :: c :: ',' :: groupRev (d :: rest) := rfl

/-- In the fallback case of `groupRev` (fewer than four characters) the
string is returned unchanged. -/
theorem groupRev_short (s : Str)
    (hs : ∀ (a b c d : Char) (rest : List Char), s = a :: b :: c :: d :: rest → False) :
    groupRev s = s := by
  rcases s with _ | ⟨a, _ | ⟨b, _ | ⟨c, _ | ⟨d, rest⟩⟩⟩⟩
  · rfl
  · rfl
  · rfl
  · rfl
  · exact absurd rfl (hs a b c d rest)

/-- Filtering out the inserted separators recovers the digit string
(reversed form). -/
theorem filter_keepCur_groupRev (s : Str) (h : ∀ c ∈ s, keepCur c = true) :
    (groupRev s).filter keepCur = s := by
  induction s using groupRev.induct with
  | case1 a b c d rest ih =>
    have ha := h a (by simp)
    have hb := h b (by simp)
    have hc := h c (by simp)
    have hrest : ∀ x ∈ d :: rest, keepCur x = true := by
      intro x hx
      exact h x (by simp only [List.mem_cons] at hx ⊢; tauto)
    have hcomma : keepCur ',' = false := by decide
    rw [groupRev_cons4]
    simp only [List.filter_cons, ha, hb, hc, hcomma]
    simp [ih hrest]
  | case2 s hs =>
    rw [groupRev_short s hs]
    exact List.filter_eq_self.mpr h

/-- Filtering out the inserted separators recovers the digit string. -/
theorem filter_keepCur_group3 (ds : Str) (h : ∀ c ∈ ds, keepCur c = true) :
    (group3 ds).filter keepCur = ds := by
  unfold group3
  rw [List.filter_reverse, filter_keepCur_groupRev _ (fun c hc => h c (List.mem_reverse.mp hc)),
    List.reverse_reverse]

theorem groupRev_ne_nil {s : Str} (h : s ≠ []) : groupRev s ≠ [] := by
  induction s using groupRev.induct with
  | case1 a b c d rest ih => rw [groupRev_cons4]; simp
  | case2 s hs => rw [groupRev_short s hs]; exact h

theorem group3_ne_nil {ds : Str} (h : ds ≠ []) : group3 ds ≠ [] := by
  unfold group3
  simp only [ne_eq, List.reverse_eq_nil_iff]
  exact groupRev_ne_nil (by simpa using h)

/-- Membership in the grouped string: every character is a digit of the
original or a comma. -/
theorem mem_groupRev : ∀ (s : Str), ∀ c ∈ groupRev s, c ∈ s ∨ c = ',' := by
  intro s
  induction s using groupRev.induct with
  | case1 a b c' d rest ih =>
    intro c hc
    rw [groupRev_cons4] at hc
    simp only [List.mem_cons] at hc ⊢
    rcases hc with hc | hc | hc | hc | hc
    · tauto
    · tauto
    · tauto
    · tauto
    · rcases ih c hc with h' | h'
      · simp only [List.mem_cons] at h'
        tauto
      · tauto
  | case2 s hs =>
    intro c hc
    rw [groupRev_short s hs] at hc
    exact Or.inl hc

theorem mem_group3 (ds : Str) (c : Char) (h : c ∈ group3 ds) :
    c ∈ ds ∨ c = ',' := by
  unfold group3 at h
  rw [List.mem_reverse] at h
  rcases mem_groupRev _ c h with h' | h'
  · exact Or.inl (List.mem_reverse.mp h')
  · exact Or.inr h'

/-! ### Strip and scan helpers -/

theorem dropWhile_eq_self_of {p : Char → Bool} {s : Str}
    (h : ∀ c ∈ s, p c = false) : s.dropWhile p = s := by
  cases s with
  | nil => rfl
  | cons c t => simp [List.dropWhile_cons, h c (by simp)]

theorem pyStrip_eq_self {s : Str} (h : ∀ c ∈ s, isPySpace c = false) :
    pyStrip s = s := by
  unfold pyStrip
  rw [dropWhile_eq_self_of h,
    dropWhile_eq_self_of (fun c hc => h c (List.mem_reverse.mp hc)),
    List.reverse_reverse]

theorem takeWhile_all {p : Char → Bool} : ∀ {s : Str},
    (∀ c ∈ s, p c = true) → s.takeWhile p = s := by
  intro s
  induction s with
  | nil => intro h; rfl
  | cons c t ih =>
    intro h
    rw [List.takeWhile_cons, h c (by simp)]
    simp [ih (fun x hx => h x (by simp [hx]))]

theorem dropWhile_all {p : Char → Bool} : ∀ {s : Str},
    (∀ c ∈ s, p c = true) → s.dropWhile p = [] := by
  intro s
  induction s with
  | nil => intro h; rfl
  | cons c t ih =>
    intro h
    rw [List.dropWhile_cons, h c (by simp)]
    simp [ih (fun x hx => h x (by simp [hx]))]

theorem takeWhile_append_stop {p : Char → Bool} {xs : Str} {y : Char} (ys : Str)
    (h : ∀ c ∈ xs, p c = true) (hy : p y = false) :
    (xs ++ y :: ys).takeWhile p = xs := by
  induction xs with
  | nil => simp [List.takeWhile_cons, hy]
  | cons c t ih =>
    rw [List.cons_append, List.takeWhile_cons, h c (by simp)]
    simp [ih (fun x hx => h x (by simp [hx]))]

theorem dropWhile_append_stop {p : Char → Bool} {xs : Str} {y : Char} (ys : Str)
    (h : ∀ c ∈ xs, p c = true) (hy : p y = false) :
    (xs ++ y :: ys).dropWhile p = y :: ys := by
  induction xs with
  | nil => simp [List.dropWhile_cons, hy]
  | cons c t ih =>
    rw [List.cons_append, List.dropWhile_cons, h c (by simp)]
    simp [ih (fun x hx => h x (by simp [hx]))]

/-- All the character facts one needs about a decimal digit character. -/
theorem isDigitChar_props {c : Char} (h : IsDigitChar c) :
    c.isDigit = true ∧ isNumChar c = true ∧ keepCur c = true ∧
    isPySpace c = false ∧ (c == '.') = false ∧ c ≠ ',' ∧ c ≠ '.' := by
  obtain ⟨m, hm, rfl⟩ := h
  obtain ⟨h1, h2, h3, h4, h5, h6⟩ := digitChar_class hm
  refine ⟨h1, h2, h3, h4, h5, ?_, ?_⟩
  · intro hcon
    rw [hcon] at h6
    simp at h6
  · intro hcon
    rw [hcon] at h5
    simp at h5

theorem natOfDigits_eq_foldl (s : Str) :
    s.foldl (fun a c => 10 * a + (c.toNat - 48)) 0 = natOfDigits s := rfl

/-- `decValue` on a pure digit string. -/
theorem decValue_digits {ds : Str} (hne : ds ≠ [])
    (h : ∀ c ∈ ds, IsDigitChar c) :
    decValue ds = some ((natOfDigits ds : ℕ) : ℚ) := by
  have hdot : ds.count '.' = 0 := by
    rw [List.count_eq_zero]
    intro hmem
    exact (isDigitChar_props (h _ hmem)).2.2.2.2.2.2 rfl
  have hany : ds.any Char.isDigit = true := by
    rw [List.any_eq_true]
    obtain ⟨c, hc⟩ := List.exists_mem_of_ne_nil ds hne
    exact ⟨c, hc, (isDigitChar_props (h c hc)).1⟩
  have hnotdot : ∀ c ∈ ds, (fun c => !(c == '.')) c = true := by
    intro c hc
    simp [(isDigitChar_props (h c hc)).2.2.2.2.1]
  unfold decValue
  rw [if_pos ⟨by omega, hany⟩]
  simp only [takeWhile_all hnotdot, dropWhile_all hnotdot, List.drop_nil,
    natOfDigits_eq_foldl]
  norm_num [natOfDigits_nil]

/-- `decValue` on a digit string with a decimal point and fractional digits. -/
theorem decValue_digits_frac {ds fs : Str} (hne : ds ≠ [])
    (hds : ∀ c ∈ ds, IsDigitChar c) (hfs : ∀ c ∈ fs, IsDigitChar c) :
    decValue (ds ++ '.' :: fs) =
      some ((natOfDigits ds : ℚ) + (natOfDigits fs : ℚ) / 10 ^ fs.length) := by
  have hdot : (ds ++ '.' :: fs).count '.' = 1 := by
    rw [List.count_append]
    have h1 : ds.count '.' = 0 := by
      rw [List.count_eq_zero]
      intro hmem
      exact (isDigitChar_props (hds _ hmem)).2.2.2.2.2.2 rfl
    have h2 : fs.count '.' = 0 := by
      rw [List.count_eq_zero]
      intro hmem
      exact (isDigitChar_props (hfs _ hmem)).2.2.2.2.2.2 rfl
    rw [h1, List.count_cons_self, h2]
  have hany : (ds ++ '.' :: fs).any Char.isDigit = true := by
    rw [List.any_eq_true]
    obtain ⟨c, hc⟩ := List.exists_mem_of_ne_nil ds hne
    exact ⟨c, by simp [hc], (isDigitChar_props (hds c hc)).1⟩
  have hnotdot : ∀ c ∈ ds, (fun c => !(c == '.')) c = true := by
    intro c hc
    simp [(isDigitChar_props (hds c hc)).2.2.2.2.1]
  have hstop : (fun c => !(c == '.')) '.' = false := by decide
  unfold decValue
  rw [if_pos ⟨by omega, hany⟩]
  simp only [takeWhile_append_stop fs hnotdot hstop,
    dropWhile_append_stop fs hnotdot hstop, List.drop_succ_cons, List.drop_zero,
    natOfDigits_eq_foldl]

/-- `parse_currency_value` when the cleaned string is entirely numeric: the
suffix is empty and the result is the converted number. -/
theorem parse_currency_value_allNum {raw : Str} (hraw : raw ≠ [])
    (hall : ∀ c ∈ cleanCur raw, isNumChar c = true) (hne : cleanCur raw ≠ []) :
    parse_currency_value raw = decValue (cleanCur raw) := by
  rcases hdv : decValue (cleanCur raw) with _ | v
  · simp [parse_currency_value, if_neg hraw, takeWhile_all hall, hdv, hne]
  · simp [parse_currency_value, if_neg hraw, takeWhile_all hall, hdv, hne,
      List.drop_length]

/-- Parsing a comma-grouped digit rendering recovers the number. -/
theorem parse_group3_digits {ds : Str} (hne : ds ≠ [])
    (hds : ∀ c ∈ ds, IsDigitChar c) :
    parse_currency_value (group3 ds) = some ((natOfDigits ds : ℕ) : ℚ) := by
  have hclean : cleanCur (group3 ds) = ds := by
    unfold cleanCur
    rw [filter_keepCur_group3 ds (fun c hc => (isDigitChar_props (hds c hc)).2.2.1)]
    exact pyStrip_eq_self (fun c hc => (isDigitChar_props (hds c hc)).2.2.2.1)
  rw [parse_currency_value_allNum (group3_ne_nil hne)
    (by rw [hclean]; exact fun c hc => (isDigitChar_props (hds c hc)).2.1)
    (by rw [hclean]; exact hne), hclean]
  exact decValue_digits hne hds

/-- Parsing a comma-grouped digit rendering with fractional digits recovers
the number. -/
theorem parse_group3_digits_frac {ds fs : Str} (hne : ds ≠ [])
    (hds : ∀ c ∈ ds, IsDigitChar c) (hfs : ∀ c ∈ fs, IsDigitChar c) :
    parse_currency_value (group3 ds ++ '.' :: fs) =
      some ((natOfDigits ds : ℚ) + (natOfDigits fs : ℚ) / 10 ^ fs.length) := by
  have hkeepdot : keepCur '.' = true := by decide
  have hclean : cleanCur (group3 ds ++ '.' :: fs) = ds ++ '.' :: fs := by
    unfold cleanCur
    rw [List.filter_append,
      filter_keepCur_group3 ds (fun c hc => (isDigitChar_props (hds c hc)).2.2.1)]
    rw [List.filter_cons]
    simp only [hkeepdot, if_pos]
    rw [List.filter_eq_self.mpr (fun c hc => (isDigitChar_props (hfs c hc)).2.2.1)]
    refine pyStrip_eq_self ?_
    intro c hc
    rcases List.mem_append.mp hc with hc | hc
    · exact (isDigitChar_props (hds c hc)).2.2.2.1
    · rcases List.mem_cons.mp hc with rfl | hc
      · decide
      · exact (isDigitChar_props (hfs c hc)).2.2.2.1
  have hraw : group3 ds ++ '.' :: fs ≠ [] := by simp
  rw [parse_currency_value_allNum hraw
    (by
      rw [hclean]
      intro c hc
      rcases List.mem_append.mp hc with hc | hc
      · exact (isDigitChar_props (hds c hc)).2.1
      · rcases List.mem_cons.mp hc with rfl | hc
        · decide
        · exact (isDigitChar_props (hfs c hc)).2.1)
    (by rw [hclean]; simp), hclean]
  exact decValue_digits_frac hne hds hfs

/-! ### Rounding lemmas -/

theorem roundHalfEven_nonneg {q : ℚ} (h : 0 ≤ q) : 0 ≤ roundHalfEven q := by
  have h0 : (0:ℤ) ≤ ⌊q⌋ := Int.floor_nonneg.mpr h
  unfold roundHalfEven
  split_ifs <;> omega

/-- The rounded value differs from the value by at most one half. -/
theorem abs_roundHalfEven_sub (q : ℚ) : |((roundHalfEven q : ℤ) : ℚ) - q| ≤ 1 / 2 := by
  have h0 := Int.fract_nonneg q
  have h1 := Int.fract_lt_one q
  have hfr : Int.fract q = q - (⌊q⌋ : ℚ) := rfl
  unfold roundHalfEven
  split_ifs with hlt hgt hev
  · rw [abs_le]
    constructor <;> linarith
  · push_cast
    rw [abs_le]
    constructor <;> linarith
  · have heq : Int.fract q = 1 / 2 := le_antisymm (not_lt.mp hgt) (not_lt.mp hlt)
    rw [abs_le]
    constructor <;> linarith
  · have heq : Int.fract q = 1 / 2 := le_antisymm (not_lt.mp hgt) (not_lt.mp hlt)
    push_cast
    rw [abs_le]
    constructor <;> linarith

/-! ### String surgery lemmas for the formatters -/

theorem natOfDigits_singleton (c : Char) : natOfDigits [c] = c.toNat - 48 := by
  simp [natOfDigits]

theorem natOfDigits_pair (c d : Char) :
    natOfDigits [c, d] = 10 * (c.toNat - 48) + (d.toNat - 48) := by
  simp [natOfDigits]

theorem endsDot00_append (xs : Str) (a b : Char) :
    endsDot00 (xs ++ ['.', a, b]) = ((b == '0') && (a == '0')) := by
  unfold endsDot00
  rw [List.reverse_append]
  simp

theorem pyDropLast3_append (xs : Str) (c1 c2 c3 : Char) :
    pyDropLast3 (xs ++ [c1, c2, c3]) = xs := by
  unfold pyDropLast3
  have hlen : (xs ++ [c1, c2, c3]).length - 3 = xs.length := by simp
  rw [hlen, List.take_left]

theorem rstripChar_append_last {c x : Char} (xs : Str) (h : (x == c) = false) :
    rstripChar c (xs ++ [x]) = xs ++ [x] := by
  unfold rstripChar
  rw [List.reverse_append]
  simp [List.dropWhile_cons, h]

theorem rstripChar_append_last2 {c y x : Char} (xs : Str) (hy : (y == c) = true)
    (hx : (x == c) = false) : rstripChar c (xs ++ [x, y]) = xs ++ [x] := by
  unfold rstripChar
  rw [List.reverse_append]
  simp [List.dropWhile_cons, hy, hx]

/-! ### The grouped rendering parses back to the rounded value -/

theorem commaGrouped2_eq (v : ℚ) (hv : 0 ≤ v) :
    commaGrouped2 v =
      group3 (natDigits ((roundHalfEven (100 * v)).natAbs / 100)) ++
        '.' :: [digitChar ((roundHalfEven (100 * v)).natAbs % 100 / 10),
                digitChar ((roundHalfEven (100 * v)).natAbs % 100 % 10)] := by
  show (if v < 0 then ['-'] else []) ++
      group3 (natDigits ((roundHalfEven (100 * v)).natAbs / 100)) ++
        '.' :: twoFrac ((roundHalfEven (100 * v)).natAbs % 100) = _
  rw [if_neg (not_lt.mpr hv)]
  simp [twoFrac]

theorem fixed2_eq (x : ℚ) (hx : 0 ≤ x) :
    fixed2 x =
      natDigits ((roundHalfEven (100 * x)).natAbs / 100) ++
        '.' :: [digitChar ((roundHalfEven (100 * x)).natAbs % 100 / 10),
                digitChar ((roundHalfEven (100 * x)).natAbs % 100 % 10)] := by
  show (if x < 0 then ['-'] else []) ++
      natDigits ((roundHalfEven (100 * x)).natAbs / 100) ++
        '.' :: twoFrac ((roundHalfEven (100 * x)).natAbs % 100) = _
  rw [if_neg (not_lt.mpr hx)]
  simp [twoFrac]

/-- Value of the integer-part digits divided by 100 plus the fraction. -/
theorem digits_value_eq {n : ℕ} (h00 : 100 ∣ n) :
    (((n / 100 : ℕ) : ℚ)) = (n : ℚ) / 100 := by
  obtain ⟨k, rfl⟩ := h00
  rw [Nat.mul_div_cancel_left k (by norm_num : 0 < 100)]
  push_cast
  ring

/-- `parse_currency_value ∘ format_number` recovers exactly the value rounded
half-to-even at two decimal places, for nonnegative values. -/
theorem parse_format_number (v : ℚ) (hv : 0 ≤ v) :
    parse_currency_value (format_number v) =
      some (((roundHalfEven (100 * v) : ℤ) : ℚ) / 100) := by
  have hI0 : 0 ≤ roundHalfEven (100 * v) := roundHalfEven_nonneg (by positivity)
  obtain ⟨n, hn⟩ : ∃ m : ℕ, (roundHalfEven (100 * v)).natAbs = m := ⟨_, rfl⟩
  have habs : ((roundHalfEven (100 * v)).natAbs : ℤ) = roundHalfEven (100 * v) :=
    Int.natAbs_of_nonneg hI0
  have hcast : ((roundHalfEven (100 * v) : ℤ) : ℚ) = (n : ℚ) := by
    rw [← hn, Int.cast_natAbs]
    exact congrArg (fun z : ℤ => (z : ℚ)) (abs_of_nonneg hI0).symm
  rw [hcast]
  have ha10 : n % 100 / 10 < 10 := by omega
  have hb10 : n % 100 % 10 < 10 := by omega
  have hf := commaGrouped2_eq v hv
  rw [hn] at hf
  have hds : ∀ c ∈ natDigits (n / 100), IsDigitChar c := fun c hc => mem_natDigits hc
  have hdsne : natDigits (n / 100) ≠ [] := natDigits_ne_nil _
  have hfmt : format_number v =
      if endsDot00 (commaGrouped2 v) then pyDropLast3 (commaGrouped2 v)
      else rstripChar '.' (rstripChar '0' (commaGrouped2 v)) := rfl
  rw [hfmt]
  by_cases h00 : n % 100 = 0
  · -- the rendering ends in ".00" and is cut back to the integer part
    have ha : digitChar (n % 100 / 10) = '0' := by rw [h00]; decide
    have hb : digitChar (n % 100 % 10) = '0' := by rw [h00]; decide
    have hends : endsDot00 (commaGrouped2 v) = true := by
      rw [hf, ha, hb, endsDot00_append]
      decide
    rw [if_pos hends, hf, ha, hb, pyDropLast3_append, parse_group3_digits hdsne hds,
      natOfDigits_natDigits, digits_value_eq (Nat.dvd_of_mod_eq_zero h00)]
  · have hends : endsDot00 (commaGrouped2 v) = false := by
      rw [hf, endsDot00_append]
      by_cases h10 : n % 10 = 0
      · have hanz : n % 100 / 10 ≠ 0 := by omega
        have ha0 : (digitChar (n % 100 / 10) == '0') = false := by
          rw [Bool.eq_false_iff]
          intro hcon
          exact hanz ((digitChar_eq_zero_iff ha10).mp hcon)
        simp [ha0]
      · have hb0 : (digitChar (n % 100 % 10) == '0') = false := by
          rw [Bool.eq_false_iff]
          intro hcon
          have := (digitChar_eq_zero_iff hb10).mp hcon
          omega
        simp [hb0]
    rw [if_neg (by simp [hends]), hf]
    by_cases h10 : n % 10 = 0
    · -- strip exactly the final zero
      have hbz : digitChar (n % 100 % 10) = '0' := by
        have h0 : n % 100 % 10 = 0 := by omega
        rw [h0]
        decide
      have hanz : n % 100 / 10 ≠ 0 := by omega
      have ha0 : (digitChar (n % 100 / 10) == '0') = false := by
        rw [Bool.eq_false_iff]
        intro hcon
        exact hanz ((digitChar_eq_zero_iff ha10).mp hcon)
      have hadot : (digitChar (n % 100 / 10) == '.') = false :=
        (digitChar_class ha10).2.2.2.2.1
      have hsplit : group3 (natDigits (n / 100)) ++
          '.' :: [digitChar (n % 100 / 10), digitChar (n % 100 % 10)] =
          (group3 (natDigits (n / 100)) ++ ['.']) ++
            [digitChar (n % 100 / 10), digitChar (n % 100 % 10)] := by
        simp
      rw [hsplit, hbz, rstripChar_append_last2 _ (by decide) ha0]
      have hsplit2 : group3 (natDigits (n / 100)) ++ ['.'] ++ [digitChar (n % 100 / 10)] =
          group3 (natDigits (n / 100)) ++ '.' :: [digitChar (n % 100 / 10)] := by
        simp
      rw [rstripChar_append_last _ hadot, hsplit2,
        parse_group3_digits_frac hdsne hds
          (by
            intro c hc
            rcases List.mem_singleton.mp hc with rfl
            exact ⟨n % 100 / 10, ha10, rfl⟩),
        natOfDigits_natDigits, natOfDigits_singleton, digitChar_toNat ha10]
      congr 1
      have hnat : 100 * (n / 100) + 10 * (n % 100 / 10) = n := by omega
      have hq : (n : ℚ) = 100 * ((n / 100 : ℕ) : ℚ) + 10 * ((n % 100 / 10 : ℕ) : ℚ) := by
        exact_mod_cast hnat.symm
      rw [hq]
      have h48 : 48 + n % 100 / 10 - 48 = n % 100 / 10 := by omega
      rw [h48]
      simp only [List.length_singleton, List.length_cons, List.length_nil]
      push_cast
      ring
    · -- no trailing zero: both rstrip steps are the identity
      have hb0 : (digitChar (n % 100 % 10) == '0') = false := by
        rw [Bool.eq_false_iff]
        intro hcon
        have := (digitChar_eq_zero_iff hb10).mp hcon
        omega
      have hbdot : (digitChar (n % 100 % 10) == '.') = false :=
        (digitChar_class hb10).2.2.2.2.1
      have hsplit : group3 (natDigits (n / 100)) ++
          '.' :: [digitChar (n % 100 / 10), digitChar (n % 100 % 10)] =
          (group3 (natDigits (n / 100)) ++ ['.', digitChar (n % 100 / 10)]) ++
            [digitChar (n % 100 % 10)] := by
        simp
      rw [hsplit, rstripChar_append_last _ hb0, rstripChar_append_last _ hbdot,
        ← hsplit,
        parse_group3_digits_frac hdsne hds
          (by
            intro c hc
            rcases List.mem_cons.mp hc with rfl | hc
            · exact ⟨n % 100 / 10, ha10, rfl⟩
            · rcases List.mem_singleton.mp hc with rfl
              exact ⟨n % 100 % 10, hb10, rfl⟩),
        natOfDigits_natDigits, natOfDigits_pair, digitChar_toNat ha10,
        digitChar_toNat hb10]
      congr 1
      have hnat : 100 * (n / 100) + (10 * (n % 100 / 10) + n % 100 % 10) = n := by
        omega
      have hq : (n : ℚ) = 100 * ((n / 100 : ℕ) : ℚ) +
          ((10 * (n % 100 / 10) + n % 100 % 10 : ℕ) : ℚ) := by
        exact_mod_cast hnat.symm
      rw [hq]
      have h48a : 48 + n % 100 / 10 - 48 = n % 100 / 10 := by omega
      have h48b : 48 + n % 100 % 10 - 48 = n % 100 % 10 := by omega
      rw [h48a, h48b]
      simp only [List.length_singleton, List.length_cons, List.length_nil]
      push_cast
      ring

/-- The abbreviated-scale rendering denotes exactly the quotient rounded
half-to-even at two decimals: `stripDot00 (fixed2 x)` re-read as a decimal
equals `roundHalfEven (100 x) / 100`, for nonnegative `x`. -/
theorem decValue_stripDot00_fixed2 (x : ℚ) (hx : 0 ≤ x) :
    decValue (stripDot00 (fixed2 x)) =
      some (((roundHalfEven (100 * x) : ℤ) : ℚ) / 100) := by
  have hI0 : 0 ≤ roundHalfEven (100 * x) := roundHalfEven_nonneg (by positivity)
  obtain ⟨n, hn⟩ : ∃ m : ℕ, (roundHalfEven (100 * x)).natAbs = m := ⟨_, rfl⟩
  have hcast : ((roundHalfEven (100 * x) : ℤ) : ℚ) = (n : ℚ) := by
    rw [← hn, Int.cast_natAbs]
    exact congrArg (fun z : ℤ => (z : ℚ)) (abs_of_nonneg hI0).symm
  rw [hcast]
  have ha10 : n % 100 / 10 < 10 := by omega
  have hb10 : n % 100 % 10 < 10 := by omega
  have hf := fixed2_eq x hx
  rw [hn] at hf
  have hds : ∀ c ∈ natDigits (n / 100), IsDigitChar c := fun c hc => mem_natDigits hc
  have hdsne : natDigits (n / 100) ≠ [] := natDigits_ne_nil _
  unfold stripDot00
  by_cases h00 : n % 100 = 0
  · have ha : digitChar (n % 100 / 10) = '0' := by rw [h00]; decide
    have hb : digitChar (n % 100 % 10) = '0' := by rw [h00]; decide
    have hends : endsDot00 (fixed2 x) = true := by
      rw [hf, ha, hb, endsDot00_append]
      decide
    rw [if_pos hends, hf, ha, hb, pyDropLast3_append,
      decValue_digits hdsne hds, natOfDigits_natDigits,
      digits_value_eq (Nat.dvd_of_mod_eq_zero h00)]
  · have hends : endsDot00 (fixed2 x) = false := by
      rw [hf, endsDot00_append]
      by_cases h10 : n % 10 = 0
      · have hanz : n % 100 / 10 ≠ 0 := by omega
        have ha0 : (digitChar (n % 100 / 10) == '0') = false := by
          rw [Bool.eq_false_iff]
          intro hcon
          exact hanz ((digitChar_eq_zero_iff ha10).mp hcon)
        simp [ha0]
      · have hb0 : (digitChar (n % 100 % 10) == '0') = false := by
          rw [Bool.eq_false_iff]
          intro hcon
          have := (digitChar_eq_zero_iff hb10).mp hcon
          omega
        simp [hb0]
    rw [if_neg (by simp [hends]), hf,
      decValue_digits_frac hdsne hds
        (by
          intro c hc
          rcases List.mem_cons.mp hc with rfl | hc
          · exact ⟨n % 100 / 10, ha10, rfl⟩
          · rcases List.mem_singleton.mp hc with rfl
            exact ⟨n % 100 % 10, hb10, rfl⟩),
      natOfDigits_natDigits, natOfDigits_pair, digitChar_toNat ha10,
      digitChar_toNat hb10]
    congr 1
    have hnat : 100 * (n / 100) + (10 * (n % 100 / 10) + n % 100 % 10) = n := by
      omega
    have hq : (n : ℚ) = 100 * ((n / 100 : ℕ) : ℚ) +
        ((10 * (n % 100 / 10) + n % 100 % 10 : ℕ) : ℚ) := by
      exact_mod_cast hnat.symm
    rw [hq]
    have h48a : 48 + n % 100 / 10 - 48 = n % 100 / 10 := by omega
    have h48b : 48 + n % 100 % 10 - 48 = n % 100 % 10 := by omega
    rw [h48a, h48b]
    simp only [List.length_singleton, List.length_cons, List.length_nil]
    push_cast
    ring

/-! ### Character facts for arbitrary digit characters -/

theorem isDigit_ne {c d : Char} (h : c.isDigit = true) (hd : d.isDigit = false) :
    (c == d) = false := by
  rw [beq_eq_false_iff_ne]
  rintro rfl
  rw [h] at hd
  cases hd

/-- Numeric-class characters survive the cleaning steps. -/
theorem numChar_props {c : Char} (h : isNumChar c = true) :
    keepCur c = true ∧ isPySpace c = false ∧ (c == ',') = false := by
  have h2 : c.isDigit = true ∨ (c == '.') = true := by
    simpa [isNumChar] using h
  rcases h2 with hd | hdot
  · refine ⟨?_, ?_, isDigit_ne hd (by decide)⟩
    · unfold keepCur
      rw [isDigit_ne hd (by decide), isDigit_ne hd (by decide)]
      rfl
    · unfold isPySpace
      rw [isDigit_ne hd (by decide), isDigit_ne hd (by decide),
        isDigit_ne hd (by decide), isDigit_ne hd (by decide),
        isDigit_ne hd (by decide), isDigit_ne hd (by decide)]
      rfl
  · have : c = '.' := by
      have := beq_iff_eq.mp hdot
      exact this
    subst this
    refine ⟨by decide, by decide, by decide⟩

theorem decValue_nil : decValue [] = none := rfl

theorem ne_nil_of_decValue {ds : Str} {v : ℚ} (hdv : decValue ds = some v) :
    ds ≠ [] := by
  rintro rfl
  rw [decValue_nil] at hdv
  cases hdv

/-- Parsing an all-numeric token followed by one suffix character applies the
scale selected by the suffix. -/
theorem parse_currency_value_suffix {ds : Str} {v : ℚ}
    (hall : ∀ c ∈ ds, isNumChar c = true) (hdv : decValue ds = some v)
    (sfx : Char) (hkeep : keepCur sfx = true) (hsp : isPySpace sfx = false)
    (hnum : isNumChar sfx = false) :
    parse_currency_value (ds ++ [sfx]) =
      some (if sfx == 'k' || sfx == 'K' then v * 1000
        else if sfx == 'm' || sfx == 'M' then v * 1000000
        else if sfx == 'b' || sfx == 'B' then v * 1000000000 else v) := by
  have hne : ds ≠ [] := ne_nil_of_decValue hdv
  have hclean : cleanCur (ds ++ [sfx]) = ds ++ [sfx] := by
    unfold cleanCur
    rw [List.filter_eq_self.mpr (by
      intro c hc
      rcases List.mem_append.mp hc with hc | hc
      · exact (numChar_props (hall c hc)).1
      · rcases List.mem_singleton.mp hc with rfl
        exact hkeep)]
    refine pyStrip_eq_self ?_
    intro c hc
    rcases List.mem_append.mp hc with hc | hc
    · exact (numChar_props (hall c hc)).2.1
    · rcases List.mem_singleton.mp hc with rfl
      exact hsp
  have htw : (ds ++ [sfx]).takeWhile isNumChar = ds :=
    takeWhile_append_stop [] hall hnum
  simp only [parse_currency_value, if_neg (show ¬ds ++ [sfx] = [] by simp),
    hclean, htw, if_neg hne, hdv, List.drop_left, List.head?_cons]
  split_ifs <;> rfl

/-- Parsing a bare all-numeric token returns its converted value unscaled. -/
theorem parse_currency_value_bare {ds : Str} {v : ℚ}
    (hall : ∀ c ∈ ds, isNumChar c = true) (hdv : decValue ds = some v) :
    parse_currency_value ds = some v := by
  have hne : ds ≠ [] := ne_nil_of_decValue hdv
  have hclean : cleanCur ds = ds := by
    unfold cleanCur
    rw [List.filter_eq_self.mpr (fun c hc => (numChar_props (hall c hc)).1)]
    exact pyStrip_eq_self (fun c hc => (numChar_props (hall c hc)).2.1)
  rw [parse_currency_value_allNum hne (by rw [hclean]; exact hall)
    (by rw [hclean]; exact hne), hclean, hdv]

/-! ### Claim theorems for the token parsers and formatters -/

/-- C5: the currency value parser strips the glyph, commas and whitespace
(the result depends only on the cleaned string), matches a leading numeric
literal with an optional case-insensitive K/M/B suffix and scales by
1000 / 1000000 / 1000000000 accordingly, leaving a suffix-free literal
unscaled; in particular `parse_currency_value "⏣ 1.5M" = 1500000` and
`parse_currency_value "garbage"` is absent. -/
theorem heist_c5 :
    parse_currency_value ("⏣ 1.5M".toList) = some 1500000 ∧
    parse_currency_value ("garbage".toList) = none ∧
    (∀ r1 r2 : Str, r1 ≠ [] → r2 ≠ [] → cleanCur r1 = cleanCur r2 →
      parse_currency_value r1 = parse_currency_value r2) ∧
    (∀ (ds : Str) (v : ℚ), (∀ c ∈ ds, isNumChar c = true) → decValue ds = some v →
      parse_currency_value ds = some v ∧
      parse_currency_value (ds ++ ['k']) = some (v * 1000) ∧
      parse_currency_value (ds ++ ['K']) = some (v * 1000) ∧
      parse_currency_value (ds ++ ['m']) = some (v * 1000000) ∧
      parse_currency_value (ds ++ ['M']) = some (v * 1000000) ∧
      parse_currency_value (ds ++ ['b']) = some (v * 1000000000) ∧
      parse_currency_value (ds ++ ['B']) = some (v * 1000000000)) := by
  refine ⟨by with_unfolding_all rfl, by with_unfolding_all rfl, ?_, ?_⟩
  · intro r1 r2 h1 h2 hcc
    simp only [parse_currency_value, if_neg h1, if_neg h2, hcc]
  · intro ds v hall hdv
    refine ⟨parse_currency_value_bare hall hdv, ?_, ?_, ?_, ?_, ?_, ?_⟩ <;>
      rw [parse_currency_value_suffix hall hdv _ (by decide) (by decide)
        (by decide)] <;> simp

/-- Witness for C5 at concrete inputs: stripping makes `"⏣ 1,500 "` parse
like `"1500"`, and the K suffix scales `1.5` to `1500`. -/
theorem heist_c5_witness :
    parse_currency_value ("⏣ 1,500 ".toList) = parse_currency_value ("1500".toList) ∧
    parse_currency_value ("1.5".toList ++ ['K']) = some ((3 / 2 : ℚ) * 1000) := by
  constructor
  · exact heist_c5.2.2.1 _ _ (by decide) (by decide) (by with_unfolding_all rfl)
  · exact (heist_c5.2.2.2 ("1.5".toList) (3 / 2) (by decide)
      (by with_unfolding_all rfl)).2.2.1

/-- C6 fails as stated: the abbreviated form of 1500 is "1.50K", not "1.5K"
(the code strips only an exact ".00" tail, not trailing zeros). -/
theorem heist_c6_counterexample :
    abbreviate_number 1500 = ("1.50K".toList) ∧ ("1.50K".toList) ≠ ("1.5K".toList) :=
  ⟨by with_unfolding_all rfl, by decide⟩

/-- C6 (amended): the abbreviated formatter picks the largest scale among
B/M/K whose quotient with the magnitude is at least 1, renders the quotient
at two decimals stripping only an exact trailing ".00" (other trailing zeros
are kept, unlike the grouped form), and appends the scale letter; magnitudes
below 1000 fall back to the grouped form.  Hence `abbreviate 1000 = "1K"`,
`abbreviate 1500 = "1.50K"`, `abbreviate 1234567 = "1.23M"` and
`abbreviate 2000000000 = "2B"`. -/
theorem heist_c6 :
    abbreviate_number 1000 = ("1K".toList) ∧
    abbreviate_number 1500 = ("1.50K".toList) ∧
    abbreviate_number 1234567 = ("1.23M".toList) ∧
    abbreviate_number 2000000000 = ("2B".toList) ∧
    (∀ v : ℚ, 1000 ≤ v → v < 1000000 → ∃ s, abbreviate_number v = s ++ ['K'] ∧
      decValue s = some (((roundHalfEven (100 * (v / 1000)) : ℤ) : ℚ) / 100)) ∧
    (∀ v : ℚ, 1000000 ≤ v → v < 1000000000 →
      ∃ s, abbreviate_number v = s ++ ['M'] ∧
      decValue s = some (((roundHalfEven (100 * (v / 1000000)) : ℤ) : ℚ) / 100)) ∧
    (∀ v : ℚ, 1000000000 ≤ v → ∃ s, abbreviate_number v = s ++ ['B'] ∧
      decValue s = some (((roundHalfEven (100 * (v / 1000000000)) : ℤ) : ℚ) / 100)) ∧
    (∀ v : ℚ, v < 1000 → abbreviate_number v = format_number v) := by
  refine ⟨by with_unfolding_all rfl, by with_unfolding_all rfl,
    by with_unfolding_all rfl, by with_unfolding_all rfl, ?_, ?_, ?_, ?_⟩
  · intro v h1 h2
    have hvB : ¬(1000000000 : ℚ) ≤ v := by linarith
    have hvM : ¬(1000000 : ℚ) ≤ v := by linarith
    unfold abbreviate_number
    rw [if_neg hvB, if_neg hvM, if_pos h1]
    exact ⟨_, rfl, decValue_stripDot00_fixed2 _ (by positivity)⟩
  · intro v h1 h2
    have hvB : ¬(1000000000 : ℚ) ≤ v := by linarith
    unfold abbreviate_number
    rw [if_neg hvB, if_pos h1]
    exact ⟨_, rfl, decValue_stripDot00_fixed2 _ (by positivity)⟩
  · intro v h1
    unfold abbreviate_number
    rw [if_pos h1]
    exact ⟨_, rfl, decValue_stripDot00_fixed2 _ (by positivity)⟩
  · intro v h1
    have hvB : ¬(1000000000 : ℚ) ≤ v := by linarith
    have hvM : ¬(1000000 : ℚ) ≤ v := by linarith
    have hvK : ¬(1000 : ℚ) ≤ v := by linarith
    unfold abbreviate_number
    rw [if_neg hvB, if_neg hvM, if_neg hvK]

/-- Witness for C6 (amended) at 1500: the K branch applies and the rendered
quotient denotes 1.5. -/
theorem heist_c6_witness :
    ∃ s, abbreviate_number 1500 = s ++ ['K'] ∧
      decValue s = some (((roundHalfEven (100 * ((1500 : ℚ) / 1000)) : ℤ) : ℚ) / 100) :=
  heist_c6.2.2.2.2.1 1500 (by norm_num) (by norm_num)

/-- C7: the token parsers are total functions into an explicit optional
result: the empty string, a cleaned string with no leading numeric character,
and a malformed numeric literal (one the float conversion rejects, such as
"1.2.3") all yield the absent value rather than any error. -/
theorem heist_c7 :
    parse_currency_value [] = none ∧ parse_plain_number [] = none ∧
    (∀ raw : Str, (cleanCur raw).takeWhile isNumChar = [] →
      parse_currency_value raw = none) ∧
    (∀ raw : Str, decValue ((cleanCur raw).takeWhile isNumChar) = none →
      parse_currency_value raw = none) ∧
    (∀ raw : Str, (cleanPlain raw).takeWhile isNumChar = [] →
      parse_plain_number raw = none) ∧
    (∀ raw : Str, decValue ((cleanPlain raw).takeWhile isNumChar) = none →
      parse_plain_number raw = none) ∧
    parse_currency_value ("1.2.3".toList) = none ∧
    parse_plain_number ("..".toList) = none := by
  refine ⟨rfl, rfl, ?_, ?_, ?_, ?_, by with_unfolding_all rfl,
    by with_unfolding_all rfl⟩
  · intro raw h
    by_cases hr : raw = []
    · subst hr; rfl
    · simp [parse_currency_value, if_neg hr, h]
  · intro raw h
    by_cases hr : raw = []
    · subst hr; rfl
    · by_cases hts : (cleanCur raw).takeWhile isNumChar = []
      · simp [parse_currency_value, if_neg hr, hts]
      · simp [parse_currency_value, if_neg hr, hts, h]
  · intro raw h
    by_cases hr : raw = []
    · subst hr; rfl
    · simp [parse_plain_number, if_neg hr, h]
  · intro raw h
    by_cases hr : raw = []
    · subst hr; rfl
    · by_cases hts : (cleanPlain raw).takeWhile isNumChar = []
      · simp [parse_plain_number, if_neg hr, hts]
      · simp [parse_plain_number, if_neg hr, hts, h]

/-- Witness for C7: a letters-only string has no leading numeric literal and
a two-dot literal is a conversion fault; both come out absent. -/
theorem heist_c7_witness :
    parse_currency_value ("no numbers here".toList) = none ∧
    parse_plain_number ("1.2.3 users".toList) = none := by
  constructor
  · exact heist_c7.2.2.1 _ (by decide)
  · exact heist_c7.2.2.2.2.2.1 _ (by with_unfolding_all rfl)

/-- C8: formatting a nonnegative magnitude below 1000 with the grouped
formatter and re-parsing it with the currency parser recovers the magnitude
up to rounding at two decimal places (the recovered value is exactly the
half-even rounding at two decimals, hence within 1/200 of the original). -/
theorem heist_c8 (v : ℚ) (h0 : 0 ≤ v) (h1000 : v < 1000) :
    parse_currency_value (format_number v) =
      some (((roundHalfEven (100 * v) : ℤ) : ℚ) / 100) ∧
    |(((roundHalfEven (100 * v) : ℤ) : ℚ) / 100) - v| ≤ 1 / 200 := by
  refine ⟨parse_format_number v h0, ?_⟩
  have h := abs_roundHalfEven_sub (100 * v)
  have heq : ((roundHalfEven (100 * v) : ℤ) : ℚ) / 100 - v =
      (((roundHalfEven (100 * v) : ℤ) : ℚ) - 100 * v) / 100 := by ring
  rw [heq, abs_div, abs_of_pos (by norm_num : (0:ℚ) < 100)]
  linarith

/-- Witness for C8 at 1.5: `format_number` gives "1.50" rounded data that
parses back to exactly 1.5. -/
theorem heist_c8_witness :
    parse_currency_value (format_number (3 / 2 : ℚ)) =
      some (((roundHalfEven (100 * (3 / 2 : ℚ)) : ℤ) : ℚ) / 100) ∧
    |(((roundHalfEven (100 * (3 / 2 : ℚ)) : ℤ) : ℚ) / 100) - (3 / 2 : ℚ)| ≤ 1 / 200 :=
  heist_c8 (3 / 2) (by norm_num) (by norm_num)

theorem scanStep_fst (acc : Option ℚ × ℕ) (l : Str) :
    (scanStep acc l).1 = (lineTotalValue l).or acc.1 := by
  unfold scanStep lineTotalValue
  rcases h : searchTotal (cleanLine l) with _ | tok
  · simp [h]
  · rcases hp : parse_currency_value ('⏣' :: ' ' :: tok) with _ | v <;>
      simp [h, hp, Option.or]

theorem scanStep_snd (acc : Option ℚ × ℕ) (l : Str) :
    (scanStep acc l).2 = (lineCountValue l).getD acc.2 := by
  unfold scanStep lineCountValue
  rcases h : searchCount (cleanLine l) with _ | tok
  · simp [h]
  · rcases hp : parse_plain_number tok with _ | n <;> simp [h, hp]

theorem getLast?_cons_or {α : Type} (v : α) (t : List α) :
    (v :: t).getLast? = t.getLast?.or (some v) := by
  induction t generalizing v with
  | nil => rfl
  | cons a t ih =>
    rw [List.getLast?_cons_cons, ih a]
    rcases ht : t.getLast? with _ | w <;> rfl

theorem foldl_scan_fst (ls : List Str) (acc : Option ℚ × ℕ) :
    (ls.foldl scanStep acc).1 = ((ls.filterMap lineTotalValue).getLast?).or acc.1 := by
  induction ls generalizing acc with
  | nil => rfl
  | cons l ls ih =>
    rw [List.foldl_cons, ih, List.filterMap_cons]
    rcases hl : lineTotalValue l with _ | v
    · rw [scanStep_fst, hl]
      rfl
    · rw [scanStep_fst, hl, getLast?_cons_or, Option.or_assoc]

theorem foldl_scan_snd (ls : List Str) (acc : Option ℚ × ℕ) :
    (ls.foldl scanStep acc).2 = ((ls.filterMap lineCountValue).getLast?).getD acc.2 := by
  induction ls generalizing acc with
  | nil => rfl
  | cons l ls ih =>
    rw [List.foldl_cons, ih, List.filterMap_cons]
    rcases hl : lineCountValue l with _ | n
    · rw [scanStep_snd, hl]
      rfl
    · rw [scanStep_snd, hl, getLast?_cons_or]
      rcases ht : (ls.filterMap lineCountValue).getLast? with _ | w <;> rfl

/-! ### Claim theorems for the detector -/

/-- C10: the per-line loop keeps the value of the last line whose token
parses successfully — a line whose pattern matches but whose token fails
numeric parsing neither clears nor overwrites the accumulators. -/
theorem heist_c10 :
    (∀ ls : List Str,
      (ls.foldl scanStep (none, 0)).1 = (ls.filterMap lineTotalValue).getLast? ∧
      (ls.foldl scanStep (none, 0)).2 =
        ((ls.filterMap lineCountValue).getLast?).getD 0) ∧
    (∀ (acc : Option ℚ × ℕ) (l : Str), lineTotalValue l = none →
      (scanStep acc l).1 = acc.1) ∧
    (∀ (acc : Option ℚ × ℕ) (l : Str), lineCountValue l = none →
      (scanStep acc l).2 = acc.2) := by
  refine ⟨fun ls => ⟨?_, ?_⟩, ?_, ?_⟩
  · rw [foldl_scan_fst]
    rcases (ls.filterMap lineTotalValue).getLast? with _ | v <;> rfl
  · rw [foldl_scan_snd]
  · intro acc l h
    rw [scanStep_fst, h]
    rfl
  · intro acc l h
    rw [scanStep_snd, h]
    rfl

/-- Witness for C10: a line whose total pattern matches with token "mmm"
(which fails parsing) leaves an earlier total of 5 in place, and a line whose
count token "..." fails parsing leaves an earlier count of 2 in place. -/
theorem heist_c10_witness :
    (scanStep (some 5, 2) ("racked up a total ⏣ mmm".toList)).1 = some 5 ∧
    (scanStep (some 5, 2) ("... users got the payout".toList)).2 = 2 := by
  constructor
  · exact heist_c10.2.1 (some 5, 2) _ (by with_unfolding_all rfl)
  · exact heist_c10.2.2 (some 5, 2) _ (by with_unfolding_all rfl)

/-- C3: within one qualifying message, when several lines match the total
(resp. count) pattern, the value extracted from the last matching line wins:
later assignment overwrites earlier, and lines after it that do not match
leave the value in place. -/
theorem heist_c3 :
    (∀ (pre suf : List Str) (l tok : Str) (v : ℚ),
      searchTotal (cleanLine l) = some tok →
      parse_currency_value ('⏣' :: ' ' :: tok) = some v →
      (∀ l' ∈ suf, searchTotal (cleanLine l') = none) →
      ((pre ++ l :: suf).foldl scanStep (none, 0)).1 = some v) ∧
    (∀ (pre suf : List Str) (l tok : Str) (n : ℚ),
      searchCount (cleanLine l) = some tok →
      parse_plain_number tok = some n →
      (∀ l' ∈ suf, searchCount (cleanLine l') = none) →
      ((pre ++ l :: suf).foldl scanStep (none, 0)).2 = (⌊n⌋).toNat) := by
  constructor
  · intro pre suf l tok v hs hp hsuf
    rw [foldl_scan_fst, List.filterMap_append, List.filterMap_cons]
    have hl : lineTotalValue l = some v := by
      unfold lineTotalValue
      rw [hs]
      simp [hp]
    have hnil : suf.filterMap lineTotalValue = [] := by
      rw [List.filterMap_eq_nil_iff]
      intro l' hl'
      unfold lineTotalValue
      rw [hsuf l' hl']
    rw [hl, hnil, List.getLast?_concat]
    rfl
  · intro pre suf l tok n hs hp hsuf
    rw [foldl_scan_snd, List.filterMap_append, List.filterMap_cons]
    have hl : lineCountValue l = some (⌊n⌋).toNat := by
      unfold lineCountValue
      rw [hs]
      simp [hp]
    have hnil : suf.filterMap lineCountValue = [] := by
      rw [List.filterMap_eq_nil_iff]
      intro l' hl'
      unfold lineCountValue
      rw [hsuf l' hl']
    rw [hl, hnil, List.getLast?_concat]
    rfl

/-- Witness for C3: after earlier total lines (100 then 200) the last total
line (300) wins even when a count line follows it, and after an earlier count
line (2) the last count line (5) wins. -/
theorem heist_c3_witness :
    ((["racked up a total ⏣ 100".toList, "racked up a total ⏣ 200".toList] ++
        "racked up a total ⏣ 300".toList :: ["5 users got the payout".toList]).foldl
      scanStep (none, 0)).1 = some 300 ∧
    (([("2 users got the payout".toList)] ++
        "5 users got the payout".toList :: ([] : List Str)).foldl
      scanStep (none, 0)).2 = (⌊(5 : ℚ)⌋).toNat := by
  constructor
  · exact heist_c3.1 _ _ _ ("300".toList) 300 (by with_unfolding_all rfl)
      (by with_unfolding_all rfl)
      (by
        intro l' hl'
        rw [List.mem_singleton] at hl'
        subst hl'
        with_unfolding_all rfl)
  · exact heist_c3.2 _ _ _ ("5".toList) 5 (by with_unfolding_all rfl)
      (by with_unfolding_all rfl) (by intro l' hl'; cases hl')

/-- C1: a message whose lowercased combined text does not contain the phrase
"amazing job everybody" is rejected outright: the detector returns the absent
value (and so does the per-message step), whatever else the text contains. -/
theorem heist_c1 (m : Msg)
    (h : containsStr phrase (lowerStr (combinedText m)) = false) :
    detectPayout (combinedText m) = none ∧ detectMsg m = none := by
  have h1 : detectPayout (combinedText m) = none := by
    unfold detectPayout
    rw [if_neg (by simp [h])]
  refine ⟨h1, ?_⟩
  unfold detectMsg
  split_ifs with hid
  · exact h1
  · rfl

/-- Witness for C1: a Dank Memer message with totals, a count line and an
embed, but the wrong phrase, is not detected. -/
theorem heist_c1_witness :
    detectPayout (combinedText
      ⟨DANK_MEMER_ID, "great job everyone! racked up a total of ⏣ 1,000".toList,
        [(some ("2 users got the payout".toList), none)]⟩) = none ∧
    detectMsg
      ⟨DANK_MEMER_ID, "great job everyone! racked up a total of ⏣ 1,000".toList,
        [(some ("2 users got the payout".toList), none)]⟩ = none :=
  heist_c1 _ (by with_unfolding_all rfl)

/-- C2: on a qualifying message whose scan finds no total, or no count (or a
zero count), the detector reports the absent value as a normal outcome; a
successful detection always carries a count of at least 1, and the
per-recipient share is formed only after that check, as total / count. -/
theorem heist_c2 (text : Str) :
    ((scanMsgLines text).1 = none ∨ (scanMsgLines text).2 = 0 →
      detectPayout text = none) ∧
    (∀ t c, detectPayout text = some (t, c) → 1 ≤ c) ∧
    (∀ t c s, buildAnnouncement text = some (t, c, s) →
      1 ≤ c ∧ s = t / (c : ℚ)) := by
  have hdet : ∀ t c, detectPayout text = some (t, c) → 1 ≤ c := by
    intro t c hd
    unfold detectPayout at hd
    split_ifs at hd with hph
    · rcases hsc : scanMsgLines text with ⟨t?, c'⟩
      rw [hsc] at hd
      rcases t? with _ | t'
      · simp at hd
      · by_cases hc : 0 < c'
        · simp only [if_pos hc] at hd
          obtain ⟨rfl, rfl⟩ : t' = t ∧ c' = c := by
            simpa using hd
          omega
        · simp [hc] at hd
  refine ⟨?_, hdet, ?_⟩
  · intro h
    unfold detectPayout
    split_ifs with hph
    · rcases hsc : scanMsgLines text with ⟨t?, c'⟩
      rcases t? with _ | t'
      · simp [hsc]
      · rcases h with h | h
        · rw [hsc] at h
          simp at h
        · rw [hsc] at h
          simp only at h
          subst h
          simp [hsc]
    · rfl
  · intro t c s hb
    unfold buildAnnouncement at hb
    rcases hd : detectPayout text with _ | tc
    · rw [hd] at hb
      cases hb
    · rw [hd] at hb
      obtain ⟨rfl, rfl, rfl⟩ : tc.1 = t ∧ tc.2 = c ∧ tc.1 / (tc.2 : ℚ) = s := by
        simpa using hb
      exact ⟨hdet _ _ (by rw [hd]), rfl⟩

/-- Witness for C2: a message that is only the trigger phrase scans to
`(none, 0)` and is reported absent; the canonical full message detects with
count 2 ≥ 1 and share 500. -/
theorem heist_c2_witness :
    detectPayout ("amazing job everybody".toList) = none ∧
    (1 : ℕ) ≤ 2 ∧
    ((1 : ℕ) ≤ 2 ∧ (500 : ℚ) = 1000 / ((2 : ℕ) : ℚ)) := by
  refine ⟨(heist_c2 _).1 (Or.inl (by with_unfolding_all rfl)), ?_, ?_⟩
  · exact (heist_c2
      ("Amazing job everybody!\nWe racked up a total of ⏣ 1,000\n2 users got the payout".toList)).2.1
      1000 2 (by with_unfolding_all rfl)
  · exact (heist_c2
      ("Amazing job everybody!\nWe racked up a total of ⏣ 1,000\n2 users got the payout".toList)).2.2
      1000 2 500 (by with_unfolding_all rfl)

/-! ### The batch scan -/

/-- Invariant of the batch loop: while fewer than `limit` detections are
collected, the loop appends exactly the next `limit - found.length`
detections (in scan order) and stops. -/
theorem scanLoop_takes :
    ∀ (msgs : List Msg) (limit : ℕ) (found : List (Msg × ℚ × ℕ)),
      found.length < limit →
      scanLoop msgs limit found =
        found ++ (msgs.filterMap detectEntry).take (limit - found.length) := by
  intro msgs
  induction msgs with
  | nil => intro limit found h; simp [scanLoop]
  | cons m rest ih =>
    intro limit found h
    rcases hd : detectMsg m with _ | tc
    · have hde : detectEntry m = none := by simp [detectEntry, hd]
      rw [scanLoop]
      simp only [hd]
      rw [if_neg (by omega), ih limit found h, List.filterMap_cons, hde]
    · have hde : detectEntry m = some (m, tc.1, tc.2) := by simp [detectEntry, hd]
      rw [scanLoop]
      simp only [hd]
      rw [List.filterMap_cons, hde]
      by_cases hlim : limit ≤ (found ++ [(m, tc.1, tc.2)]).length
      · rw [if_pos hlim]
        have hl : limit - found.length = 1 := by
          simp only [List.length_append, List.length_singleton] at hlim
          omega
        rw [hl, List.take_succ_cons, List.take_zero]
      · rw [if_neg hlim]
        have h2 : (found ++ [(m, tc.1, tc.2)]).length < limit := by omega
        rw [ih limit _ h2, List.append_assoc, List.singleton_append,
          List.length_append, List.length_singleton]
        have hstep : limit - found.length = (limit - (found.length + 1)) + 1 := by
          simp only [List.length_append, List.length_singleton] at hlim
          omega
        rw [hstep, List.take_succ_cons]

/-- C4: for any newest-first message list and any limit of at least 1 (the
commands only pass 1..5), the batch scan returns exactly the first `limit`
successful detections of the scan order — i.e. the `limit` most recent
qualifying messages — reversed into oldest-first order.  Collecting stops as
soon as `limit` detections exist, and at most `limit` are returned. -/
theorem heist_c4 (msgs : List Msg) (limit : ℕ) (h : 1 ≤ limit) :
    get_recent_heist_messages msgs limit =
      ((msgs.filterMap detectEntry).take limit).reverse := by
  unfold get_recent_heist_messages
  rw [scanLoop_takes msgs limit [] (by simpa using h)]
  simp

/-- Witness for C4: over the ten messages, of which three qualify, a limit of
2 returns the two most recent detections (totals 100 and 300), reversed into
oldest-first order. -/
theorem heist_c4_witness :
    get_recent_heist_messages exMsgs 2 =
      ((exMsgs.filterMap detectEntry).take 2).reverse ∧
    (exMsgs.filterMap detectEntry).length = 3 :=
  ⟨heist_c4 exMsgs 2 (by norm_num), by with_unfolding_all rfl⟩

/-- C9: the four parsing/formatting helpers defined in heistsummary.py and
their counterparts in the heist auto-calculator file are extensionally equal
— the two copies compute identical results on every input. -/
theorem heist_c9 :
    (∀ raw : Str, parse_currency_value raw = HC.parse_currency_value raw) ∧
    (∀ raw : Str, parse_plain_number raw = HC.parse_plain_number raw) ∧
    (∀ v : ℚ, format_number v = HC.format_number v) ∧
    (∀ v : ℚ, abbreviate_number v = HC.abbreviate_number v) :=
  ⟨fun _ => rfl, fun _ => rfl, fun _ => rfl, fun _ => rfl⟩
